import Mathlib

/-!
Verification of the nefi observability pipeline (Go sources) against its
natural-language specification, via a shallow embedding in Lean 4.

Modelling conventions:
* Go machine integers (uint16/uint32/uint64) are modelled as `ℕ`; narrowing
  casts are modelled with `% 2^w` where the source performs one.
* Go `float64` values flowing through the metrics aggregator are modelled as
  exact rationals (`ℚ`); the concrete latency values and bucket boundaries in
  every statement below are integers far below 2^53, where the two agree.
* `time.Time` values are modelled by their `UnixNano` integer (`ℤ`).
* Go maps used with insertion (`map[string]*T` plus get-or-create) are
  modelled as association lists; iteration order never matters for the
  properties below.
* Go slices are Lean lists; `s[1:]` is `List.drop 1`, `append` is `++`.
-/

set_option maxHeartbeats 1000000

namespace Nefi

universe u

/-! ## Export client queue (internal/agent/exporter/grpc.go) -/

/-- State of the exporter's in-memory event queue (`Exporter.queue`), together
with a counter of how many times the drop-oldest branch of `Enqueue` ran
(each run logs "event queue full, dropping oldest event" and removes one
event). -/
structure ExportQueue (α : Type u) where
  queue : List α
  dropped : ℕ
deriving DecidableEq

/-- Model of `Exporter.Enqueue` (grpc.go lines 141-151): if the queue already
holds at least `queueLimit` events the head (oldest) is removed, then the new
event is appended. -/
def enqueue (queueLimit : ℕ) (st : ExportQueue α) (evt : α) : ExportQueue α :=
  if queueLimit ≤ st.queue.length then
    { queue := st.queue.drop 1 ++ [evt], dropped := st.dropped + 1 }
  else
    { queue := st.queue ++ [evt], dropped := st.dropped }

/-- A sequence of `Enqueue` calls, in order. -/
def enqueueAll (queueLimit : ℕ) (st : ExportQueue α) (evts : List α) : ExportQueue α :=
  evts.foldl (enqueue queueLimit) st

/-- Model of the send-error path of `Exporter.flush` (grpc.go lines 300-310):
the unsent batch is prepended to the queue's current contents, and if the
result exceeds `queueLimit` the slice keeps only its last `queueLimit`
elements (`remaining[len(remaining)-e.queueLimit:]`). -/
def requeueOnSendError (queueLimit : ℕ) (batch queueNow : List α) : List α :=
  let remaining := batch ++ queueNow
  if queueLimit < remaining.length then
    remaining.drop (remaining.length - queueLimit)
  else
    remaining

/-- Model of one run of `Exporter.flush` (grpc.go lines 259-320) on an active
stream. `q0` is the queue when `flush` takes the lock, `enqueuedMeanwhile`
the events other goroutines enqueue between the unlock and the send-error
lock reacquisition, `sendOk` the outcome of `stream.Send`. The result is the
final queue and `true` for a nil error (the empty-queue early return sends
nothing and returns nil). -/
def flushResult (batchSize queueLimit : ℕ) (q0 enqueuedMeanwhile : List α) (sendOk : Bool) :
    List α × Bool :=
  if q0.length = 0 then (q0 ++ enqueuedMeanwhile, true)
  else
    let n := min batchSize q0.length
    let batch := q0.take n
    let queueNow := q0.drop n ++ enqueuedMeanwhile
    if sendOk then (queueNow, true)
    else (requeueOnSendError queueLimit batch queueNow, false)

/-! ## Identity cache workload resolution (internal/agent/k8s/cache.go) -/

/-- Index of the last occurrence of `c` in `cs` (models `strings.LastIndex`
restricted to a one-character needle; `none` models the -1 return). -/
def lastIndexOf (c : Char) : List Char → Option ℕ
  | [] => none
  | x :: xs =>
    match lastIndexOf c xs with
    | some j => some (j + 1)
    | none => if x = c then some 0 else none

/-- Model of `stripReplicaSetHash` (cache.go lines 300-311): if the name has a
last dash at a positive index and the text after it is 5 to 16 characters
long, everything from the dash on is removed; otherwise the name is returned
unchanged. The source performs no other check on the suffix. -/
def stripReplicaSetHash (name : String) : String :=
  match lastIndexOf (Char.ofNat 45) name.toList with
  | none => name
  | some idx =>
    if idx = 0 then name
    else
      let suffix := name.toList.drop (idx + 1)
      if 5 ≤ suffix.length ∧ suffix.length ≤ 16 then
        String.mk (name.toList.take idx)
      else name

/-- The specification's definition of a ReplicaSet hash suffix: 5 to 16
characters, all alphanumeric. Stated from the spec for comparison with
`stripReplicaSetHash`, which the source implements without the alphanumeric
check. -/
def specIsHashSuffix (s : List Char) : Bool :=
  decide (5 ≤ s.length) && decide (s.length ≤ 16) && s.all Char.isAlphanum

/-- An ownerReference: kind and name. -/
structure OwnerRef where
  kind : String
  name : String
deriving DecidableEq

/-- The pod data `resolveWorkload` reads: name, namespace (field `ns`), and
ownerReferences. -/
structure PodInfo where
  name : String
  ns : String
  ownerRefs : List OwnerRef
deriving DecidableEq

/-- Model of `Cache.resolveWorkload` (cache.go lines 243-272).
`rsDeployOwner ns rsName` stands for `resolveReplicaSetOwner`, which returns
the owning Deployment's name or `""`. -/
def resolveWorkload (rsDeployOwner : String → String → String) (pod : PodInfo) :
    String × String :=
  match pod.ownerRefs with
  | [] => (pod.name, "Pod")
  | owner :: _ =>
    if owner.kind = "ReplicaSet" then
      let deployName := rsDeployOwner pod.ns owner.name
      if deployName ≠ "" then (deployName, "Deployment")
      else (stripReplicaSetHash owner.name, "ReplicaSet")
    else if owner.kind = "StatefulSet" then (owner.name, "StatefulSet")
    else if owner.kind = "DaemonSet" then (owner.name, "DaemonSet")
    else if owner.kind = "Job" then (owner.name, "Job")
    else (owner.name, owner.kind)

/-! ## HTTP method decoding (internal/agent/ebpf/loader.go) -/

/-- Model of the `httpMethods` map (loader.go lines 53-62): the value stored
for a method byte, `none` when the byte is not a key. -/
def httpMethods (b : ℕ) : Option String :=
  match b with
  | 0 => some "UNKNOWN"
  | 1 => some "GET"
  | 2 => some "POST"
  | 3 => some "PUT"
  | 4 => some "DELETE"
  | 5 => some "PATCH"
  | 6 => some "HEAD"
  | 7 => some "OPTIONS"
  | _ => none

/-- The method-string computation of `httpEventToModel` (loader.go lines
413-416): map lookup with "UNKNOWN" when the byte is not a key. -/
def decodeHTTPMethod (b : ℕ) : String :=
  (httpMethods b).getD "UNKNOWN"

/-! ## Dependency computer P99 (internal/server/graph, computeP99) -/

/-- Model of `computeP99` (graph dependency computer, lines 290-312). The
index expression `int(float64(n)*0.99 + 0.5) - 1` is modelled in exact
arithmetic as `⌊(99·n + 50)/100⌋ - 1`; at every concrete input below
(n = 51 and n = 100) the float64 evaluation produces the same index, which
can be checked by hand (51·0.99 + 0.5 ≈ 50.99 truncates to 50, and
100·0.99 + 0.5 = 99.5 truncates to 99). `sort.Slice` with `<` on `uint64`
is modelled by `List.insertionSort (· ≤ ·)`, which produces the same
(unique) ascending ordering of the multiset. -/
def computeP99 (latencies : List ℕ) : ℕ :=
  let n := latencies.length
  if n = 0 then 0
  else
    let sorted := latencies.insertionSort (· ≤ ·)
    let idx0 : ℤ := (99 * (n : ℤ) + 50) / 100 - 1
    let idx1 : ℤ := if idx0 < 0 then 0 else idx0
    let idx2 : ℤ := if (n : ℤ) ≤ idx1 then (n : ℤ) - 1 else idx1
    sorted.getD idx2.toNat 0

/-! ## Domain model (internal/model/event.go) -/

/-- Model of `model.Endpoint`. The Go field `Namespace` is called `ns` here
(`namespace` is a Lean keyword); `Port` is a uint16. -/
structure Endpoint where
  ip : String
  port : ℕ
  pod : String
  ns : String
  workload : String
  workloadType : String
  service : String
deriving DecidableEq

/-- Model of `model.ConnectionEvent`; `timestampNs` is the `UnixNano` value of
the Go `Timestamp`. -/
structure ConnectionEvent where
  timestampNs : ℤ
  node : String
  source : Endpoint
  destination : Endpoint
  bytesSent : ℕ
  bytesRecv : ℕ
  durationNs : ℕ
  retransmits : ℕ
  protocol : String
deriving DecidableEq

/-- Model of `model.HTTPRequestEvent`; `statusCode` is a uint16. -/
structure HTTPRequestEvent where
  timestampNs : ℤ
  node : String
  source : Endpoint
  destination : Endpoint
  method : String
  path : String
  statusCode : ℕ
  latencyNs : ℕ
  protocol : String
deriving DecidableEq

/-- Model of `model.DependencyLink`. -/
structure DependencyLink where
  parent : String
  child : String
  callCount : ℕ
  errorCount : ℕ
  p99LatencyNs : ℕ
deriving DecidableEq

/-! ## Wire format (exporter grpc.go / ingestion proto mirror structs) -/

/-- Model of `EndpointProto` (`Port` is a uint32 on the wire). -/
structure EndpointProto where
  ip : String
  port : ℕ
  pod : String
  ns : String
  workload : String
  workloadType : String
  service : String
deriving DecidableEq

/-- Model of `ConnectionEventProto`; `Source`/`Destination` are pointers and
may be nil, hence `Option`. -/
structure ConnectionEventProto where
  timestampNs : ℤ
  node : String
  source : Option EndpointProto
  destination : Option EndpointProto
  bytesSent : ℕ
  bytesRecv : ℕ
  durationNs : ℕ
  retransmits : ℕ
  protocol : String
deriving DecidableEq

/-- Model of `HTTPRequestEventProto` (`StatusCode` is a uint32 on the wire). -/
structure HTTPRequestEventProto where
  timestampNs : ℤ
  node : String
  source : Option EndpointProto
  destination : Option EndpointProto
  method : String
  path : String
  statusCode : ℕ
  latencyNs : ℕ
  protocol : String
deriving DecidableEq

/-- Model of `EventBatch` as the ingestion server receives it. -/
structure EventBatch where
  node : String
  connections : List ConnectionEventProto
  httpRequests : List HTTPRequestEventProto
deriving DecidableEq

/-- Model of `endpointToProto` (grpc.go lines 326-336): field copy;
`uint32(ep.Port)` is value-preserving on a uint16. -/
def endpointToProto (ep : Endpoint) : EndpointProto :=
  { ip := ep.ip, port := ep.port, pod := ep.pod, ns := ep.ns,
    workload := ep.workload, workloadType := ep.workloadType, service := ep.service }

/-- Model of `connectionEventToProto` (grpc.go lines 338-350). -/
def connectionEventToProto (ce : ConnectionEvent) : ConnectionEventProto :=
  { timestampNs := ce.timestampNs, node := ce.node,
    source := some (endpointToProto ce.source),
    destination := some (endpointToProto ce.destination),
    bytesSent := ce.bytesSent, bytesRecv := ce.bytesRecv,
    durationNs := ce.durationNs, retransmits := ce.retransmits,
    protocol := ce.protocol }

/-- Model of `httpRequestEventToProto` (grpc.go lines 352-364). -/
def httpRequestEventToProto (he : HTTPRequestEvent) : HTTPRequestEventProto :=
  { timestampNs := he.timestampNs, node := he.node,
    source := some (endpointToProto he.source),
    destination := some (endpointToProto he.destination),
    method := he.method, path := he.path, statusCode := he.statusCode,
    latencyNs := he.latencyNs, protocol := he.protocol }

/-- Model of the ingestion server's `protoToEndpoint`: nil maps to the zero
Endpoint, and `uint16(ep.Port)` truncates the uint32 to 16 bits. -/
def protoToEndpoint : Option EndpointProto → Endpoint
  | none => { ip := "", port := 0, pod := "", ns := "", workload := "",
              workloadType := "", service := "" }
  | some ep =>
    { ip := ep.ip, port := ep.port % 65536, pod := ep.pod, ns := ep.ns,
      workload := ep.workload, workloadType := ep.workloadType, service := ep.service }

/-- Model of the ingestion server's `protoToConnectionEvent`: the event's node
defaults to the batch-level node when blank. -/
def protoToConnectionEvent (c : ConnectionEventProto) (node : String) : ConnectionEvent :=
  { timestampNs := c.timestampNs,
    node := if c.node = "" then node else c.node,
    source := protoToEndpoint c.source,
    destination := protoToEndpoint c.destination,
    bytesSent := c.bytesSent, bytesRecv := c.bytesRecv,
    durationNs := c.durationNs, retransmits := c.retransmits,
    protocol := c.protocol }

/-- Model of the ingestion server's `protoToHTTPRequestEvent`
(`uint16(r.StatusCode)` truncates). -/
def protoToHTTPRequestEvent (r : HTTPRequestEventProto) (node : String) : HTTPRequestEvent :=
  { timestampNs := r.timestampNs,
    node := if r.node = "" then node else r.node,
    source := protoToEndpoint r.source,
    destination := protoToEndpoint r.destination,
    method := r.method, path := r.path,
    statusCode := r.statusCode % 65536,
    latencyNs := r.latencyNs, protocol := r.protocol }

/-! ## Metrics aggregator (internal/server/metrics/aggregator.go) -/

/-- The fixed latency histogram bucket boundaries in nanoseconds
(`defaultBucketBoundaries`, aggregator.go lines 21-34). -/
def defaultBucketBoundaries : List ℚ :=
  [1000000, 5000000, 10000000, 25000000, 50000000, 100000000,
   250000000, 500000000, 1000000000, 2500000000, 5000000000, 10000000000]

/-- Lookup in an association list keyed by strings (models a Go map read). -/
def lookupAssoc {β : Type u} : List (String × β) → String → Option β
  | [], _ => none
  | (k, v) :: rest, key => if k = key then some v else lookupAssoc rest key

/-- Insertion/update in an association list (models a Go map write). -/
def setAssoc {β : Type u} : List (String × β) → String → β → List (String × β)
  | [], key, v => [(key, v)]
  | (k, v') :: rest, key, v =>
    if k = key then (key, v) :: rest else (k, v') :: setAssoc rest key v

/-- Model of `serviceMetrics` (aggregator.go lines 54-71). `lastObserved` is
wall-clock time and is not modelled. -/
structure ServiceMetrics where
  ns : String
  latencyCounts : List ℕ
  latencySum : ℚ
  callCount : ℕ
  errorCount : ℕ
  bytesSent : ℕ
  bytesRecv : ℕ
deriving DecidableEq

/-- The aggregator's per-service map `Aggregator.services`. -/
abbrev AggState := List (String × ServiceMetrics)

/-- A fresh `serviceMetrics` as built by `getOrCreate`:
`make([]uint64, len(buckets)+1)` of zeros. -/
def emptyServiceMetrics (ns : String) : ServiceMetrics :=
  { ns := ns,
    latencyCounts := List.replicate (defaultBucketBoundaries.length + 1) 0,
    latencySum := 0, callCount := 0, errorCount := 0, bytesSent := 0, bytesRecv := 0 }

/-- The bucket a latency sample lands in: the first index `i` (scanning in
order) with `x ≤ buckets[i]`, or `buckets.length` (the +Inf bucket) when the
sample exceeds every boundary. This is the loop of `observeLatency`
(aggregator.go lines 168-179). -/
def bucketIdx (buckets : List ℚ) (x : ℚ) : ℕ :=
  buckets.findIdx (fun b => decide (x ≤ b))

/-- The bucket-count update of `observeLatency`: increment the one bucket the
sample lands in. -/
def observeLatencyCounts (buckets : List ℚ) (counts : List ℕ) (x : ℚ) : List ℕ :=
  let i := bucketIdx buckets x
  counts.set i (counts.getD i 0 + 1)

/-- Model of `observeLatency` (aggregator.go lines 164-180) on a
`serviceMetrics` value: add to the running sum, bump one bucket. -/
def observeLatencySM (sm : ServiceMetrics) (x : ℚ) : ServiceMetrics :=
  { sm with latencySum := sm.latencySum + x,
            latencyCounts := observeLatencyCounts defaultBucketBoundaries sm.latencyCounts x }

/-- Model of `Aggregator.ObserveConnection` (aggregator.go lines 99-121). -/
def observeConnection (st : AggState) (ev : ConnectionEvent) : AggState :=
  let svc := if ev.source.service = "" then ev.destination.service else ev.source.service
  if svc = "" then st
  else
    let sm := (lookupAssoc st svc).getD (emptyServiceMetrics ev.source.ns)
    let sm1 := { sm with callCount := sm.callCount + 1,
                         bytesSent := sm.bytesSent + ev.bytesSent,
                         bytesRecv := sm.bytesRecv + ev.bytesRecv }
    let sm2 := if 0 < ev.durationNs then observeLatencySM sm1 (ev.durationNs : ℚ) else sm1
    setAssoc st svc sm2

/-- Model of `Aggregator.ObserveHTTPRequest` (aggregator.go lines 124-146). -/
def observeHTTPRequest (st : AggState) (ev : HTTPRequestEvent) : AggState :=
  let svc := if ev.destination.service = "" then ev.source.service else ev.destination.service
  if svc = "" then st
  else
    let sm := (lookupAssoc st svc).getD (emptyServiceMetrics ev.destination.ns)
    let sm1 := { sm with callCount := sm.callCount + 1,
                         errorCount := sm.errorCount + if 500 ≤ ev.statusCode then 1 else 0 }
    let sm2 := if 0 < ev.latencyNs then observeLatencySM sm1 (ev.latencyNs : ℚ) else sm1
    setAssoc st svc sm2

/-- A sequence of bare latency observations into one histogram, starting from
the zeroed buckets (this is what a service's `latencyCounts` equals after
those samples were observed). -/
def observeAll (samples : List ℚ) : List ℕ :=
  samples.foldl (observeLatencyCounts defaultBucketBoundaries)
    (List.replicate (defaultBucketBoundaries.length + 1) 0)

/-- Model of `totalHistogramCount` (aggregator.go lines 325-331). -/
def totalHistogramCount (counts : List ℕ) : ℕ :=
  counts.foldl (· + ·) 0

/-- The lower interpolation bound of bucket `i` in `histogramPercentile`:
0 for bucket 0, otherwise the previous boundary (aggregator.go lines
349-353; the final `else` of the source leaves the zero value). -/
def bLower (buckets : List ℚ) (i : ℕ) : ℚ :=
  if i = 0 then 0
  else if i ≤ buckets.length then buckets.getD (i - 1) 0
  else 0

/-- The upper interpolation bound of bucket `i` in `histogramPercentile`: the
bucket's own boundary, or twice the last boundary for the +Inf bucket
(aggregator.go lines 355-362; zero when there are no buckets). -/
def bUpper (buckets : List ℚ) (i : ℕ) : ℚ :=
  if i < buckets.length then buckets.getD i 0
  else buckets.getLastD 0 * 2

/-- The bucket walk of `histogramPercentile` (aggregator.go lines 344-372):
`cum` is the cumulative count before the current bucket, `i` its index. When
the running cumulative first reaches the target, interpolate linearly inside
that bucket (returning the lower bound for an empty bucket); past the last
bucket (unreachable for total > 0) return the last boundary. -/
def histPercentileAux (buckets : List ℚ) (target : ℚ) :
    List ℕ → ℕ → ℚ → ℚ
  | [], _, _ => buckets.getLastD 0
  | c :: rest, i, cum =>
    let cum' := cum + (c : ℚ)
    if target ≤ cum' then
      if c = 0 then bLower buckets i
      else bLower buckets i + ((target - cum) / (c : ℚ)) * (bUpper buckets i - bLower buckets i)
    else histPercentileAux buckets target rest (i + 1) cum'

/-- Model of `histogramPercentile` (aggregator.go lines 340-379). -/
def histogramPercentile (buckets : List ℚ) (counts : List ℕ) (total : ℕ) (quantile : ℚ) : ℚ :=
  histPercentileAux buckets (quantile * (total : ℚ)) counts 0 0

/-- The percentile estimate the aggregator's flush computes for a histogram
holding exactly `samples` (flush calls `histogramPercentile` with
`totalHistogramCount` of the bucket counts). -/
def percentileOfSamples (samples : List ℚ) (q : ℚ) : ℚ :=
  histogramPercentile defaultBucketBoundaries (observeAll samples)
    (totalHistogramCount (observeAll samples)) q

/-! ## Dependency computer accumulation (graph package) -/

/-- Model of `linkAccumulator`. -/
structure LinkAccumulator where
  parent : String
  child : String
  callCount : ℕ
  errorCount : ℕ
  latencies : List ℕ
deriving DecidableEq

/-- The dependency computer's accumulator map `dc.deps`, keyed
"parent->child". -/
abbrev DepState := List (String × LinkAccumulator)

/-- The accumulator key `src + "->" + dst`. -/
def depKey (src dst : String) : String := src ++ "->" ++ dst

/-- Model of `addConnectionEvent` (dependency computer, lines 219-240):
self-loops and blank services are skipped; otherwise bump the edge's call
count and append the duration as a latency sample when positive. -/
def addConnectionEvent (st : DepState) (ev : ConnectionEvent) : DepState :=
  let src := ev.source.service
  let dst := ev.destination.service
  if src = "" ∨ dst = "" ∨ src = dst then st
  else
    let acc := (lookupAssoc st (depKey src dst)).getD
      { parent := src, child := dst, callCount := 0, errorCount := 0, latencies := [] }
    let acc1 := { acc with callCount := acc.callCount + 1 }
    let acc2 := if 0 < ev.durationNs
      then { acc1 with latencies := acc1.latencies ++ [ev.durationNs] } else acc1
    setAssoc st (depKey src dst) acc2

/-- Model of `addHTTPRequestEvent` (dependency computer, lines 243-266). -/
def addHTTPRequestEvent (st : DepState) (ev : HTTPRequestEvent) : DepState :=
  let src := ev.source.service
  let dst := ev.destination.service
  if src = "" ∨ dst = "" ∨ src = dst then st
  else
    let acc := (lookupAssoc st (depKey src dst)).getD
      { parent := src, child := dst, callCount := 0, errorCount := 0, latencies := [] }
    let acc1 := { acc with callCount := acc.callCount + 1,
                           errorCount := acc.errorCount + if 500 ≤ ev.statusCode then 1 else 0 }
    let acc2 := if 0 < ev.latencyNs
      then { acc1 with latencies := acc1.latencies ++ [ev.latencyNs] } else acc1
    setAssoc st (depKey src dst) acc2

/-- Model of `buildLinks` (dependency computer, lines 270-286). -/
def buildLinks (st : DepState) : List DependencyLink :=
  st.map (fun kv =>
    { parent := kv.2.parent, child := kv.2.child, callCount := kv.2.callCount,
      errorCount := kv.2.errorCount, p99LatencyNs := computeP99 kv.2.latencies })

/-- One `compute` cycle's accumulation (lines 176-199): starting from a fresh
map, fold in the window's connection events then its request events. -/
def depsOf (conns : List ConnectionEvent) (reqs : List HTTPRequestEvent) : DepState :=
  reqs.foldl addHTTPRequestEvent (conns.foldl addConnectionEvent [])

/-! ## Ingestion server (StreamEvents / processBatch) -/

/-- State the ingestion server's handler touches: the storage contents (two
append-only event lists), the aggregator map, the server's monotonic
`accepted` counter, and the storage writer's behaviour modelled as the list
of outcomes of the successive write calls (`true` = nil error; exhausted =
`true`). -/
structure IngestState where
  storedConnections : List ConnectionEvent
  storedRequests : List HTTPRequestEvent
  agg : AggState
  acceptedCounter : ℕ
  writeOutcomes : List Bool
deriving DecidableEq

/-- The decoded connection events of a batch (`protoToConnectionEvent` with
the batch node). -/
def decodeConnections (b : EventBatch) : List ConnectionEvent :=
  b.connections.map (fun c => protoToConnectionEvent c b.node)

/-- The decoded request events of a batch. -/
def decodeRequests (b : EventBatch) : List HTTPRequestEvent :=
  b.httpRequests.map (fun r => protoToHTTPRequestEvent r b.node)

/-- The request half of `processBatch` (part_005 lines 216-235) followed by
the final `s.accepted.Add(accepted)`: returns (accepted, nil-error?, state). -/
def processRequestsPart (st : IngestState) (b : EventBatch) (accepted0 : ℕ) :
    ℕ × Bool × IngestState :=
  if b.httpRequests.isEmpty then
    (accepted0, true, { st with acceptedCounter := st.acceptedCounter + accepted0 })
  else
    let reqs := decodeRequests b
    let ok := st.writeOutcomes.headD true
    let st1 := { st with writeOutcomes := st.writeOutcomes.tail }
    if ok then
      let st2 := { st1 with storedRequests := st1.storedRequests ++ reqs,
                            agg := reqs.foldl observeHTTPRequest st1.agg }
      let accepted := accepted0 + reqs.length
      (accepted, true, { st2 with acceptedCounter := st2.acceptedCounter + accepted })
    else (accepted0, false, st1)

/-- Model of `processBatch` (part_005 lines 193-236): convert and write the
connection events, abort with the partial count on a write error, else fan
out to the aggregator; then the same for the request events. -/
def processBatch (st : IngestState) (b : EventBatch) : ℕ × Bool × IngestState :=
  if b.connections.isEmpty then processRequestsPart st b 0
  else
    let conns := decodeConnections b
    let ok := st.writeOutcomes.headD true
    let st1 := { st with writeOutcomes := st.writeOutcomes.tail }
    if ok then
      let st2 := { st1 with storedConnections := st1.storedConnections ++ conns,
                            agg := conns.foldl observeConnection st1.agg }
      processRequestsPart st2 b conns.length
    else (0, false, st1)

/-- Model of `StreamEvents` (part_005 lines 154-188): receive batches until
EOF, add each batch's accepted count to the stream total whether or not its
processing failed, and answer EOF with the total. The incoming stream is the
list of batches before EOF. Returns (totalAccepted, final state). -/
def streamEvents (batches : List EventBatch) (st : IngestState) : ℕ × IngestState :=
  match batches with
  | [] => (0, st)
  | b :: rest =>
    let r := processBatch st b
    let t := streamEvents rest r.2.2
    (r.1 + t.1, t.2)

/-! ## Helper lemmas -/

theorem enqueueAll_cons (B : ℕ) (st : ExportQueue α) (e : α) (rest : List α) :
    enqueueAll B st (e :: rest) = enqueueAll B (enqueue B st e) rest := rfl

theorem enqueueAll_closed_form (B : ℕ) (hB : 0 < B) :
    ∀ (evts q : List α) (d : ℕ), q.length ≤ B →
      enqueueAll B { queue := q, dropped := d } evts =
        { queue := (q ++ evts).drop (q.length + evts.length - B),
          dropped := d + (q.length + evts.length - B) } := by
  intro evts
  induction evts with
  | nil =>
    intro q d hq
    have h0 : q.length - B = 0 := by omega
    simp [enqueueAll, h0]
  | cons e rest ih =>
    intro q d hq
    rw [enqueueAll_cons]
    by_cases hfull : B ≤ q.length
    · have hlen : q.length = B := le_antisymm hq hfull
      cases q with
      | nil => simp at hlen; omega
      | cons q0 qt =>
        have hqt : qt.length + 1 = B := by simpa using hlen
        have hfull' : B ≤ qt.length + 1 := by omega
        have step : enqueue B { queue := q0 :: qt, dropped := d } e =
            { queue := qt ++ [e], dropped := d + 1 } := by
          simp [enqueue, hfull']
        rw [step, ih (qt ++ [e]) (d + 1)
          (by simp only [List.length_append, List.length_cons, List.length_nil]; omega)]
        have hidx1 : (qt ++ [e]).length + rest.length - B = rest.length := by
          simp only [List.length_append, List.length_cons, List.length_nil]; omega
        have hidx2 : (q0 :: qt).length + (e :: rest).length - B = rest.length + 1 := by
          simp only [List.length_cons]; omega
        rw [hidx1, hidx2]
        have hl : (qt ++ [e]) ++ rest = qt ++ e :: rest := by simp
        have hr : (q0 :: qt) ++ e :: rest = q0 :: (qt ++ e :: rest) := rfl
        rw [hl, hr, List.drop_succ_cons]
        simp only [ExportQueue.mk.injEq]
        exact ⟨by simp, by omega⟩
    · push_neg at hfull
      have step : enqueue B { queue := q, dropped := d } e =
          { queue := q ++ [e], dropped := d } := by
        simp [enqueue, Nat.not_le.mpr hfull]
      rw [step, ih (q ++ [e]) d
        (by simp only [List.length_append, List.length_cons, List.length_nil]; omega)]
      have hidx : (q ++ [e]).length + rest.length - B =
          q.length + (e :: rest).length - B := by
        simp only [List.length_append, List.length_cons, List.length_nil]; omega
      simp only [hidx, List.append_assoc, List.singleton_append]

theorem sum_set_getD_add_one :
    ∀ (l : List ℕ) (i : ℕ), i < l.length →
      (l.set i (l.getD i 0 + 1)).sum = l.sum + 1 := by
  intro l
  induction l with
  | nil => intro i h; simp at h
  | cons a t ih =>
    intro i h
    cases i with
    | zero => simp [List.getD_cons_zero]; omega
    | succ j =>
      have hj : j < t.length := by simpa using h
      simp only [List.getD_cons_succ, List.set_cons_succ, List.sum_cons, ih j hj]
      omega

theorem observeLatencyCounts_length (buckets : List ℚ) (counts : List ℕ) (x : ℚ) :
    (observeLatencyCounts buckets counts x).length = counts.length := by
  simp [observeLatencyCounts, List.length_set]

theorem bucketIdx_le_length (buckets : List ℚ) (x : ℚ) :
    bucketIdx buckets x ≤ buckets.length :=
  List.findIdx_le_length _

theorem observeLatencyCounts_sum (buckets : List ℚ) (counts : List ℕ) (x : ℚ)
    (h : buckets.length < counts.length) :
    (observeLatencyCounts buckets counts x).sum = counts.sum + 1 := by
  have hidx : bucketIdx buckets x < counts.length :=
    lt_of_le_of_lt (bucketIdx_le_length buckets x) h
  simpa [observeLatencyCounts] using sum_set_getD_add_one counts _ hidx

theorem foldl_observe_length (buckets : List ℚ) :
    ∀ (samples : List ℚ) (counts : List ℕ),
      (samples.foldl (observeLatencyCounts buckets) counts).length = counts.length := by
  intro samples
  induction samples with
  | nil => intro counts; rfl
  | cons s rest ih =>
    intro counts
    rw [List.foldl_cons, ih, observeLatencyCounts_length]

theorem foldl_observe_sum (buckets : List ℚ) :
    ∀ (samples : List ℚ) (counts : List ℕ), buckets.length < counts.length →
      (samples.foldl (observeLatencyCounts buckets) counts).sum =
        counts.sum + samples.length := by
  intro samples
  induction samples with
  | nil => intro counts _; rfl
  | cons s rest ih =>
    intro counts h
    rw [List.foldl_cons, ih _ (by rwa [observeLatencyCounts_length]),
      observeLatencyCounts_sum _ _ _ h, List.length_cons]
    omega

theorem observeAll_length (samples : List ℚ) :
    (observeAll samples).length = defaultBucketBoundaries.length + 1 := by
  rw [observeAll, foldl_observe_length, List.length_replicate]

theorem observeAll_sum (samples : List ℚ) : (observeAll samples).sum = samples.length := by
  rw [observeAll, foldl_observe_sum _ _ _ (by simp)]
  simp [List.sum_replicate]

/-! ## C1 -/

/-- C1: a queue of bound `B > 0` fed `k` enqueues never exceeds length `B`;
after all `k` enqueues from empty the queue holds exactly the
`min k B` most-recently-enqueued events in enqueue order, the drop branch ran
`k - B` times (0 when `k ≤ B`), and an `Enqueue` against a queue at length
`B` removes precisely the head before appending. -/
theorem enqueue_bounded_drop_oldest (B : ℕ) (evts : List α) (hB : 0 < B) :
    (enqueueAll B { queue := [], dropped := 0 } evts).queue =
      evts.drop (evts.length - B) ∧
    (enqueueAll B { queue := [], dropped := 0 } evts).queue.length = min evts.length B ∧
    (enqueueAll B { queue := [], dropped := 0 } evts).dropped =
      evts.length - min evts.length B ∧
    (∀ n, (enqueueAll B { queue := [], dropped := 0 } (evts.take n)).queue.length ≤ B) ∧
    (∀ (st : ExportQueue α) (e : α), st.queue.length = B →
      enqueue B st e = { queue := st.queue.drop 1 ++ [e], dropped := st.dropped + 1 }) := by
  have h := enqueueAll_closed_form B hB evts [] 0 (by simp)
  simp only [List.nil_append, List.length_nil, Nat.zero_add] at h
  refine ⟨by rw [h], ?_, ?_, ?_, ?_⟩
  · rw [h]; simp only [List.length_drop]; omega
  · rw [h]; dsimp only; omega
  · intro n
    have h' := enqueueAll_closed_form B hB (evts.take n) [] 0 (by simp)
    simp only [List.nil_append, List.length_nil, Nat.zero_add] at h'
    rw [h']; simp only [List.length_drop]; omega
  · intro st e hst
    simp [enqueue, hst]

/-- C1 witness: bound 3, five enqueues; the queue ends at `[2, 3, 4]` (the 3
newest), length 3, with 2 drops. -/
theorem enqueue_bounded_drop_oldest_witness :
    (enqueueAll 3 { queue := [], dropped := 0 } ([0, 1, 2, 3, 4] : List ℕ)).queue =
        [0, 1, 2, 3, 4].drop ([0, 1, 2, 3, 4].length - 3) ∧
      (enqueueAll 3 { queue := [], dropped := 0 } ([0, 1, 2, 3, 4] : List ℕ)).queue.length =
        min [0, 1, 2, 3, 4].length 3 ∧
      (enqueueAll 3 { queue := [], dropped := 0 } ([0, 1, 2, 3, 4] : List ℕ)).dropped =
        [0, 1, 2, 3, 4].length - min [0, 1, 2, 3, 4].length 3 ∧
      (∀ n, (enqueueAll 3 { queue := [], dropped := 0 }
        (([0, 1, 2, 3, 4] : List ℕ).take n)).queue.length ≤ 3) ∧
      (∀ (st : ExportQueue ℕ) (e : ℕ), st.queue.length = 3 →
        enqueue 3 st e = { queue := st.queue.drop 1 ++ [e], dropped := st.dropped + 1 }) :=
  enqueue_bounded_drop_oldest 3 [0, 1, 2, 3, 4] (by decide)

/-! ## C6 -/

/-- C6: every latency observation increments exactly one histogram bucket —
the bucket of the first (hence smallest, the boundaries being ascending)
boundary at least the sample, or the overflow bucket at index
`|boundaries|` when the sample exceeds every boundary — so the bucket
counts always sum to the number of observations. -/
theorem observeLatency_one_bucket_sum_inv :
    (∀ samples : List ℚ, (observeAll samples).sum = samples.length) ∧
    (∀ samples : List ℚ, totalHistogramCount (observeAll samples) = samples.length) ∧
    (∀ (samples : List ℚ) (x : ℚ),
      observeAll (samples ++ [x]) =
        (observeAll samples).set (bucketIdx defaultBucketBoundaries x)
          ((observeAll samples).getD (bucketIdx defaultBucketBoundaries x) 0 + 1)) ∧
    (∀ x : ℚ,
      bucketIdx defaultBucketBoundaries x ≤ defaultBucketBoundaries.length ∧
      (∀ hlt : bucketIdx defaultBucketBoundaries x < defaultBucketBoundaries.length,
        x ≤ defaultBucketBoundaries.getD (bucketIdx defaultBucketBoundaries x) 0) ∧
      (∀ j, j < bucketIdx defaultBucketBoundaries x →
        defaultBucketBoundaries.getD j 0 < x)) := by
  refine ⟨observeAll_sum, ?_, ?_, ?_⟩
  · intro samples
    rw [totalHistogramCount, ← List.sum_eq_foldl, observeAll_sum]
  · intro samples x
    rw [observeAll, observeAll, List.foldl_append, List.foldl_cons, List.foldl_nil]
    rfl
  · intro x
    refine ⟨bucketIdx_le_length _ x, ?_, ?_⟩
    · intro hlt
      have h := @List.findIdx_getElem _ (fun b => decide (x ≤ b)) defaultBucketBoundaries hlt
      rw [List.getD_eq_getElem _ _ hlt]
      exact of_decide_eq_true h
    · intro j hj
      have hjl : j < defaultBucketBoundaries.length :=
        lt_of_lt_of_le hj (bucketIdx_le_length _ x)
      have h := @List.not_of_lt_findIdx _ (fun b => decide (x ≤ b))
        defaultBucketBoundaries j hj
      rw [List.getD_eq_getElem _ _ hjl]
      have := of_decide_eq_false h
      exact lt_of_not_le this

/-! ## C4 -/

/-- C4 counterexample: with bound 2, a failed send of batch `[0, 1]` while the
queue holds `[2]` leaves the queue `[1, 2]` — the oldest event `0` (the head
of the restored batch) is discarded, not the newest as the claim states
(truncating from the tail would retain `[0, 1]`). -/
theorem flush_requeue_truncates_head_cex :
    requeueOnSendError 2 ([0, 1] : List ℕ) [2] = [1, 2] ∧
    requeueOnSendError 2 ([0, 1] : List ℕ) [2] ≠ (([0, 1] : List ℕ) ++ [2]).take 2 := by
  decide

/-- C4 (amended): on a send error the flush prepends the unsent batch ahead
of the queue's current contents and, when the result exceeds the bound,
truncates from the head (the oldest events) so that the newest
`min (length) bound` events are retained in order; the send error is
returned. -/
theorem flush_requeue_on_error (limit : ℕ) (batch queueNow : List α) :
    requeueOnSendError limit batch queueNow =
      (batch ++ queueNow).drop (batch.length + queueNow.length - limit) ∧
    (requeueOnSendError limit batch queueNow).length =
      min (batch.length + queueNow.length) limit ∧
    requeueOnSendError limit batch queueNow <:+ batch ++ queueNow ∧
    (batch.length + queueNow.length ≤ limit →
      requeueOnSendError limit batch queueNow = batch ++ queueNow) ∧
    (∀ (batchSize : ℕ) (enqueuedMeanwhile : List α), batch ≠ [] →
      flushResult batchSize limit batch enqueuedMeanwhile false =
        (requeueOnSendError limit (batch.take (min batchSize batch.length))
          (batch.drop (min batchSize batch.length) ++ enqueuedMeanwhile), false)) := by
  have hmain : requeueOnSendError limit batch queueNow =
      (batch ++ queueNow).drop (batch.length + queueNow.length - limit) := by
    unfold requeueOnSendError
    by_cases h : limit < (batch ++ queueNow).length
    · simp only [h, if_true]
      simp [List.length_append]
    · simp only [h, if_false]
      have h0 : batch.length + queueNow.length - limit = 0 := by
        simp [List.length_append] at h; omega
      simp [h0]
  refine ⟨hmain, ?_, ?_, ?_, ?_⟩
  · rw [hmain, List.length_drop]
    simp only [List.length_append]; omega
  · rw [hmain]
    exact ⟨(batch ++ queueNow).take (batch.length + queueNow.length - limit),
      List.take_append_drop _ _⟩
  · intro hfit
    rw [hmain]
    have h0 : batch.length + queueNow.length - limit = 0 := by omega
    simp [h0]
  · intro batchSize enqueuedMeanwhile hne
    have hlen : ¬ batch.length = 0 := by
      simpa [List.length_eq_zero] using hne
    simp [flushResult, hlen]

/-- C4 witness: the amended statement at bound 2, batch `[0, 1]`, queue `[2]`,
batch size 100. -/
theorem flush_requeue_on_error_witness :
    requeueOnSendError 2 ([0, 1] : List ℕ) [2] =
        (([0, 1] : List ℕ) ++ [2]).drop (([0, 1] : List ℕ).length + [2].length - 2) ∧
      (requeueOnSendError 2 ([0, 1] : List ℕ) [2]).length =
        min (([0, 1] : List ℕ).length + [2].length) 2 ∧
      requeueOnSendError 2 ([0, 1] : List ℕ) [2] <:+ ([0, 1] : List ℕ) ++ [2] ∧
      (([0, 1] : List ℕ).length + [2].length ≤ 2 →
        requeueOnSendError 2 ([0, 1] : List ℕ) [2] = ([0, 1] : List ℕ) ++ [2]) ∧
      (∀ (batchSize : ℕ) (enqueuedMeanwhile : List ℕ), ([0, 1] : List ℕ) ≠ [] →
        flushResult batchSize 2 [0, 1] enqueuedMeanwhile false =
          (requeueOnSendError 2 (([0, 1] : List ℕ).take (min batchSize 2))
            (([0, 1] : List ℕ).drop (min batchSize 2) ++ enqueuedMeanwhile), false)) :=
  flush_requeue_on_error 2 [0, 1] [2]

/-! ## C3 -/

/-- C3: `computeP99` truncates `0.99·n + 0.5` instead of taking
`⌈0.99·n⌉`, contradicting the source's own comment ("P99 index:
ceil(0.99 * n) - 1"): on the 51 samples 1..51 it returns 50 (index 49),
while the claimed index `⌈0.99·51⌉ - 1 = 50` holds 51. On the empty list it
returns 0, and on the 100 samples 1..100 it returns 99 (the claim and the
code agree there). -/
theorem computeP99_rounds_instead_of_ceil :
    computeP99 ((List.range 51).map (· + 1)) = 50 ∧
    ((((List.range 51).map (· + 1)).insertionSort (· ≤ ·)).getD
      (Nat.ceil ((99 : ℚ) * 51 / 100) - 1) 0 = 51) ∧
    computeP99 [] = 0 ∧
    computeP99 ((List.range 100).map (· + 1)) = 99 := by
  refine ⟨by decide, ?_, by decide, by decide⟩
  have hc : Nat.ceil ((99 : ℚ) * 51 / 100) = 51 := by
    rw [Nat.ceil_eq_iff (by norm_num)]
    norm_num
  rw [hc]
  decide

/-! ## C9 -/

/-- C9: `stripReplicaSetHash` checks only the suffix length, never that it is
alphanumeric, contradicting both the claim and the source's own comment
("Verify the suffix looks like a hash (alphanumeric, ...)"): the name
`"web-ab_cd"`, whose last token `"ab_cd"` contains `_` and is not a hash
under the claim's definition, is nevertheless stripped to `"web"`, and a pod
owned by a ReplicaSet of that name with no owning Deployment resolves to
`("web", "ReplicaSet")` instead of the unchanged name. -/
theorem stripReplicaSetHash_skips_alnum_check :
    stripReplicaSetHash "web-ab_cd" = "web" ∧
    specIsHashSuffix "ab_cd".toList = false ∧
    resolveWorkload (fun _ _ => "")
      { name := "web-ab_cd-x7k2p", ns := "default",
        ownerRefs := [{ kind := "ReplicaSet", name := "web-ab_cd" }] } =
      ("web", "ReplicaSet") := by
  refine ⟨by decide, by decide, ?_⟩
  decide

/-! ## C10 -/

/-- C10: decoding the method byte is total — bytes 0..7 map to UNKNOWN, GET,
POST, PUT, DELETE, PATCH, HEAD, OPTIONS, and every other byte value maps to
"UNKNOWN" rather than failing. -/
theorem decodeHTTPMethod_total :
    decodeHTTPMethod 0 = "UNKNOWN" ∧ decodeHTTPMethod 1 = "GET" ∧
    decodeHTTPMethod 2 = "POST" ∧ decodeHTTPMethod 3 = "PUT" ∧
    decodeHTTPMethod 4 = "DELETE" ∧ decodeHTTPMethod 5 = "PATCH" ∧
    decodeHTTPMethod 6 = "HEAD" ∧ decodeHTTPMethod 7 = "OPTIONS" ∧
    ∀ b : ℕ, 7 < b → decodeHTTPMethod b = "UNKNOWN" := by
  refine ⟨rfl, rfl, rfl, rfl, rfl, rfl, rfl, rfl, ?_⟩
  intro b h
  obtain ⟨k, rfl⟩ : ∃ k, b = k + 8 := ⟨b - 8, by omega⟩
  rfl

/-! ## C7 -/

theorem lookupAssoc_mem {β : Type u} :
    ∀ (st : List (String × β)) (k : String) (v : β),
      lookupAssoc st k = some v → (k, v) ∈ st := by
  intro st
  induction st with
  | nil => intro k v h; simp [lookupAssoc] at h
  | cons kv rest ih =>
    intro k v h
    obtain ⟨k0, v0⟩ := kv
    by_cases hk : k0 = k
    · rw [lookupAssoc, if_pos hk] at h
      cases h
      subst hk
      exact List.mem_cons_self _ _
    · rw [lookupAssoc, if_neg hk] at h
      exact List.mem_cons_of_mem _ (ih k v h)

theorem mem_setAssoc {β : Type u} :
    ∀ (st : List (String × β)) (k : String) (v : β) (x : String × β),
      x ∈ setAssoc st k v → x ∈ st ∨ x = (k, v) := by
  intro st
  induction st with
  | nil => intro k v x h; simp [setAssoc] at h; right; exact h
  | cons kv rest ih =>
    intro k v x h
    by_cases hk : kv.1 = k
    · rw [setAssoc, if_pos hk] at h
      rcases List.mem_cons.mp h with h1 | h1
      · right; exact h1
      · left; exact List.mem_cons_of_mem _ h1
    · rw [setAssoc, if_neg hk] at h
      rcases List.mem_cons.mp h with h1 | h1
      · left; exact h1 ▸ List.mem_cons_self _ _
      · rcases ih k v x h1 with h2 | h2
        · left; exact List.mem_cons_of_mem _ h2
        · right; exact h2

theorem addConnectionEvent_good (st : DepState) (ev : ConnectionEvent)
    (hst : ∀ kv ∈ st, kv.2.parent ≠ "" ∧ kv.2.child ≠ "" ∧ kv.2.parent ≠ kv.2.child) :
    ∀ kv ∈ addConnectionEvent st ev,
      kv.2.parent ≠ "" ∧ kv.2.child ≠ "" ∧ kv.2.parent ≠ kv.2.child := by
  intro kv hkv
  rw [addConnectionEvent] at hkv
  by_cases hskip : ev.source.service = "" ∨ ev.destination.service = "" ∨
      ev.source.service = ev.destination.service
  · rw [if_pos hskip] at hkv
    exact hst kv hkv
  · rw [if_neg hskip] at hkv
    push_neg at hskip
    obtain ⟨hs, hd, hne⟩ := hskip
    rcases mem_setAssoc _ _ _ _ hkv with hmem | heq
    · exact hst kv hmem
    · subst heq
      dsimp only
      cases hlk : lookupAssoc st (depKey ev.source.service ev.destination.service) with
      | none =>
        by_cases hdur : 0 < ev.durationNs <;> simp [hdur, hs, hd, hne]
      | some acc =>
        obtain ⟨h1, h2, h3⟩ := hst _ (lookupAssoc_mem _ _ _ hlk)
        by_cases hdur : 0 < ev.durationNs <;> simp [hdur, h1, h2, h3]

theorem addHTTPRequestEvent_good (st : DepState) (ev : HTTPRequestEvent)
    (hst : ∀ kv ∈ st, kv.2.parent ≠ "" ∧ kv.2.child ≠ "" ∧ kv.2.parent ≠ kv.2.child) :
    ∀ kv ∈ addHTTPRequestEvent st ev,
      kv.2.parent ≠ "" ∧ kv.2.child ≠ "" ∧ kv.2.parent ≠ kv.2.child := by
  intro kv hkv
  rw [addHTTPRequestEvent] at hkv
  by_cases hskip : ev.source.service = "" ∨ ev.destination.service = "" ∨
      ev.source.service = ev.destination.service
  · rw [if_pos hskip] at hkv
    exact hst kv hkv
  · rw [if_neg hskip] at hkv
    push_neg at hskip
    obtain ⟨hs, hd, hne⟩ := hskip
    rcases mem_setAssoc _ _ _ _ hkv with hmem | heq
    · exact hst kv hmem
    · subst heq
      dsimp only
      cases hlk : lookupAssoc st (depKey ev.source.service ev.destination.service) with
      | none =>
        by_cases hlat : 0 < ev.latencyNs <;> simp [hlat, hs, hd, hne]
      | some acc =>
        obtain ⟨h1, h2, h3⟩ := hst _ (lookupAssoc_mem _ _ _ hlk)
        by_cases hlat : 0 < ev.latencyNs <;> simp [hlat, h1, h2, h3]

theorem foldl_addConnectionEvent_good (conns : List ConnectionEvent) :
    ∀ st : DepState,
      (∀ kv ∈ st, kv.2.parent ≠ "" ∧ kv.2.child ≠ "" ∧ kv.2.parent ≠ kv.2.child) →
      ∀ kv ∈ conns.foldl addConnectionEvent st,
        kv.2.parent ≠ "" ∧ kv.2.child ≠ "" ∧ kv.2.parent ≠ kv.2.child := by
  induction conns with
  | nil => intro st hst; exact hst
  | cons c rest ih =>
    intro st hst
    rw [List.foldl_cons]
    exact ih _ (addConnectionEvent_good st c hst)

theorem foldl_addHTTPRequestEvent_good (reqs : List HTTPRequestEvent) :
    ∀ st : DepState,
      (∀ kv ∈ st, kv.2.parent ≠ "" ∧ kv.2.child ≠ "" ∧ kv.2.parent ≠ kv.2.child) →
      ∀ kv ∈ reqs.foldl addHTTPRequestEvent st,
        kv.2.parent ≠ "" ∧ kv.2.child ≠ "" ∧ kv.2.parent ≠ kv.2.child := by
  induction reqs with
  | nil => intro st hst; exact hst
  | cons r rest ih =>
    intro st hst
    rw [List.foldl_cons]
    exact ih _ (addHTTPRequestEvent_good st r hst)

/-- C7: events whose source and destination services are equal (in particular
self-loops) or blank never create an accumulator, so every emitted
`DependencyLink` has non-empty `parent ≠ child`, and a window whose events
all have `source.service = destination.service` yields zero links. -/
theorem dependency_suppresses_self_edges :
    (∀ (conns : List ConnectionEvent) (reqs : List HTTPRequestEvent),
      ∀ l ∈ buildLinks (depsOf conns reqs),
        l.parent ≠ "" ∧ l.child ≠ "" ∧ l.parent ≠ l.child) ∧
    (∀ (conns : List ConnectionEvent) (reqs : List HTTPRequestEvent),
      (∀ e ∈ conns, e.source.service = e.destination.service) →
      (∀ e ∈ reqs, e.source.service = e.destination.service) →
      buildLinks (depsOf conns reqs) = []) := by
  constructor
  · intro conns reqs l hl
    rw [buildLinks, List.mem_map] at hl
    obtain ⟨kv, hkv, rfl⟩ := hl
    have hgood := foldl_addHTTPRequestEvent_good reqs _
      (foldl_addConnectionEvent_good conns [] (by simp)) kv hkv
    exact hgood
  · intro conns reqs hc hr
    have hstepc : ∀ c : ConnectionEvent, c.source.service = c.destination.service →
        addConnectionEvent [] c = [] := by
      intro c h
      rw [addConnectionEvent, if_pos (Or.inr (Or.inr h))]
    have hstepr : ∀ r : HTTPRequestEvent, r.source.service = r.destination.service →
        addHTTPRequestEvent [] r = [] := by
      intro r h
      rw [addHTTPRequestEvent, if_pos (Or.inr (Or.inr h))]
    have hconns : ∀ cs : List ConnectionEvent,
        (∀ e ∈ cs, e.source.service = e.destination.service) →
        cs.foldl addConnectionEvent [] = [] := by
      intro cs
      induction cs with
      | nil => intro _; rfl
      | cons c rest ih =>
        intro h
        rw [List.foldl_cons, hstepc c (h c (List.mem_cons_self c rest))]
        exact ih (fun e he => h e (List.mem_cons_of_mem c he))
    have hreqs : ∀ rs : List HTTPRequestEvent,
        (∀ e ∈ rs, e.source.service = e.destination.service) →
        rs.foldl addHTTPRequestEvent [] = [] := by
      intro rs
      induction rs with
      | nil => intro _; rfl
      | cons r rest ih =>
        intro h
        rw [List.foldl_cons, hstepr r (h r (List.mem_cons_self r rest))]
        exact ih (fun e he => h e (List.mem_cons_of_mem r he))
    rw [depsOf, hconns conns hc, hreqs reqs hr]
    rfl

/-! ## C5 -/

theorem processRequestsPart_accept (st : IngestState) (b : EventBatch) (a0 : ℕ) :
    (processRequestsPart st b a0).1 + st.storedConnections.length +
        st.storedRequests.length =
      a0 + (processRequestsPart st b a0).2.2.storedConnections.length +
        (processRequestsPart st b a0).2.2.storedRequests.length := by
  rw [processRequestsPart]
  by_cases he : b.httpRequests.isEmpty = true
  · simp [he]
  · simp only [he, if_false, Bool.false_eq_true]
    by_cases ho : st.writeOutcomes.headD true = true
    all_goals simp only [List.headD_eq_head?_getD] at ho
    · simp [ho, List.length_append]
      omega
    · simp [ho]

theorem processBatch_accept (st : IngestState) (b : EventBatch) :
    (processBatch st b).1 + st.storedConnections.length + st.storedRequests.length =
      (processBatch st b).2.2.storedConnections.length +
        (processBatch st b).2.2.storedRequests.length := by
  rw [processBatch]
  by_cases he : b.connections.isEmpty = true
  · simpa [he] using processRequestsPart_accept st b 0
  · simp only [he, if_false, Bool.false_eq_true]
    by_cases ho : st.writeOutcomes.headD true = true
    all_goals simp only [List.headD_eq_head?_getD] at ho ⊢
    · simp only [ho, if_true]
      have h := processRequestsPart_accept
        { st with writeOutcomes := st.writeOutcomes.tail,
                  storedConnections := st.storedConnections ++ decodeConnections b,
                  agg := (decodeConnections b).foldl observeConnection st.agg }
        b (decodeConnections b).length
      simp only [List.length_append] at h ⊢
      omega
    · simp [ho]

/-- C5 (amended): a failing storage write during `StreamEvents` is fully
isolated — the stream goes on to the next batch and totals keep adding; a
failed connection write leaves storage, the aggregator and the accepted
counter exactly as they were; a failed request write still persists and
publishes the batch's connection events and returns that partial count, but
the batch's own request events (the events after the failure point) are
skipped; when both writes succeed every event of the batch is persisted and
published; and across any stream the returned total equals the number of
events actually persisted. -/
theorem streamEvents_write_failure_isolated :
    (∀ (st : IngestState) (b : EventBatch) (rest : List EventBatch),
      streamEvents (b :: rest) st =
        ((processBatch st b).1 + (streamEvents rest (processBatch st b).2.2).1,
          (streamEvents rest (processBatch st b).2.2).2)) ∧
    (∀ (st : IngestState) (b : EventBatch), b.connections ≠ [] →
      st.writeOutcomes.headD true = false →
      processBatch st b = (0, false, { st with writeOutcomes := st.writeOutcomes.tail })) ∧
    (∀ (st : IngestState) (b : EventBatch), b.connections ≠ [] → b.httpRequests ≠ [] →
      st.writeOutcomes.headD true = true → st.writeOutcomes.tail.headD true = false →
      processBatch st b = ((decodeConnections b).length, false,
        { st with
            storedConnections := st.storedConnections ++ decodeConnections b,
            agg := (decodeConnections b).foldl observeConnection st.agg,
            writeOutcomes := st.writeOutcomes.tail.tail })) ∧
    (∀ (st : IngestState) (b : EventBatch),
      st.writeOutcomes.headD true = true → st.writeOutcomes.tail.headD true = true →
      (processBatch st b).2.2.storedConnections =
          st.storedConnections ++ decodeConnections b ∧
        (processBatch st b).2.2.storedRequests = st.storedRequests ++ decodeRequests b ∧
        (processBatch st b).1 = (decodeConnections b).length + (decodeRequests b).length ∧
        (processBatch st b).2.2.agg =
          (decodeRequests b).foldl observeHTTPRequest
            ((decodeConnections b).foldl observeConnection st.agg)) ∧
    (∀ (batches : List EventBatch) (st : IngestState),
      (streamEvents batches st).1 + st.storedConnections.length +
          st.storedRequests.length =
        (streamEvents batches st).2.storedConnections.length +
          (streamEvents batches st).2.storedRequests.length) := by
  refine ⟨?_, ?_, ?_, ?_, ?_⟩
  · intro st b rest
    rfl
  · intro st b hne ho
    have he : ¬ b.connections.isEmpty = true := by
      simpa [List.isEmpty_iff] using hne
    rw [processBatch]
    simp only [List.headD_eq_head?_getD] at ho
    simp [he, ho]
  · intro st b hnc hnr ho1 ho2
    have hec : ¬ b.connections.isEmpty = true := by
      simpa [List.isEmpty_iff] using hnc
    have her : ¬ b.httpRequests.isEmpty = true := by
      simpa [List.isEmpty_iff] using hnr
    rw [processBatch]
    simp only [List.headD_eq_head?_getD] at ho1 ho2
    simp only [hec, if_false, Bool.false_eq_true, ho1, if_true]
    rw [processRequestsPart]
    have ho2' : st.writeOutcomes[1]?.getD true = false := by
      simpa using ho2
    simp [her, ho1, ho2, ho2']
  · intro st b ho1 ho2
    rw [processBatch]
    simp only [List.headD_eq_head?_getD] at ho1 ho2
    by_cases hec : b.connections.isEmpty = true
    · have hdc : decodeConnections b = [] := by
        rw [decodeConnections, List.isEmpty_iff.mp hec]
        rfl
      simp only [hec, if_true]
      rw [processRequestsPart]
      by_cases her : b.httpRequests.isEmpty = true
      · have hdr : decodeRequests b = [] := by
          rw [decodeRequests, List.isEmpty_iff.mp her]
          rfl
        simp [her, List.isEmpty_iff.mp her, hdc, hdr]
      · simp [her, ho1, hdc]
    · simp only [hec, if_false, Bool.false_eq_true, ho1, if_true]
      rw [processRequestsPart]
      by_cases her : b.httpRequests.isEmpty = true
      · have hdr : decodeRequests b = [] := by
          rw [decodeRequests, List.isEmpty_iff.mp her]
          rfl
        simp [her, List.isEmpty_iff.mp her, hdr, ho1]
      · have ho2' : st.writeOutcomes[1]?.getD true = true := by
          simpa using ho2
        simp [her, ho1, ho2, ho2']
  · intro batches
    induction batches with
    | nil => intro st; simp [streamEvents]
    | cons b rest ih =>
      intro st
      have hb := processBatch_accept st b
      have hr := ih (processBatch st b).2.2
      rw [streamEvents]
      dsimp only
      omega

/-- C5 counterexample: one batch carrying one connection event and one request
event, with the connection write failing. The request event — an event after
the failure point — is neither written to storage nor published to the
aggregator, and the batch's accepted count is 0, contradicting the claim
that every event after the failure point is still written and published. -/
theorem streamEvents_same_batch_drop_cex :
    (streamEvents
        [{ node := "n1",
           connections := [{ timestampNs := 1, node := "", source := none,
                             destination := none, bytesSent := 10, bytesRecv := 20,
                             durationNs := 30, retransmits := 0, protocol := "TCP" }],
           httpRequests := [{ timestampNs := 2, node := "", source := none,
                              destination := none, method := "GET", path := "/x",
                              statusCode := 200, latencyNs := 40, protocol := "HTTP" }] }]
        { storedConnections := [], storedRequests := [], agg := [],
          acceptedCounter := 0, writeOutcomes := [false] }).2.storedRequests = [] ∧
    (streamEvents
        [{ node := "n1",
           connections := [{ timestampNs := 1, node := "", source := none,
                             destination := none, bytesSent := 10, bytesRecv := 20,
                             durationNs := 30, retransmits := 0, protocol := "TCP" }],
           httpRequests := [{ timestampNs := 2, node := "", source := none,
                              destination := none, method := "GET", path := "/x",
                              statusCode := 200, latencyNs := 40, protocol := "HTTP" }] }]
        { storedConnections := [], storedRequests := [], agg := [],
          acceptedCounter := 0, writeOutcomes := [false] }).2.agg = [] ∧
    (streamEvents
        [{ node := "n1",
           connections := [{ timestampNs := 1, node := "", source := none,
                             destination := none, bytesSent := 10, bytesRecv := 20,
                             durationNs := 30, retransmits := 0, protocol := "TCP" }],
           httpRequests := [{ timestampNs := 2, node := "", source := none,
                              destination := none, method := "GET", path := "/x",
                              statusCode := 200, latencyNs := 40, protocol := "HTTP" }] }]
        { storedConnections := [], storedRequests := [], agg := [],
          acceptedCounter := 0, writeOutcomes := [false] }).1 = 0 := by
  refine ⟨rfl, rfl, rfl⟩

/-! ## C8 -/

/-- C8: encoding a `ConnectionEvent` with the exporter and decoding it with
the ingestion server round-trips to a field-equal event, the node being the
per-event node when non-empty and the batch envelope's node otherwise.
(The uint16 ports round-trip through the uint32 wire fields because they
are below 2^16.) -/
theorem connectionEvent_roundtrip (ce : ConnectionEvent) (batchNode : String)
    (hs : ce.source.port < 65536) (hd : ce.destination.port < 65536) :
    protoToConnectionEvent (connectionEventToProto ce) batchNode =
      { ce with node := if ce.node = "" then batchNode else ce.node } := by
  cases ce with
  | mk ts node src dst bs br dur rt proto =>
    cases src with
    | mk sip sport spod sns sw swt ssvc =>
      cases dst with
      | mk dip dport dpod dns dw dwt dsvc =>
        simp only [protoToConnectionEvent, connectionEventToProto, protoToEndpoint,
          endpointToProto] at *
        congr 1 <;> simp_all [Nat.mod_eq_of_lt]

/-- C8 witness: a concrete event with blank node inherits the envelope node
`"node-b"` and every other field round-trips. -/
theorem connectionEvent_roundtrip_witness :
    protoToConnectionEvent
        (connectionEventToProto
          { timestampNs := 1700000000000000000, node := "",
            source := { ip := "10.0.0.5", port := 443, pod := "p1", ns := "default",
                        workload := "frontend", workloadType := "Deployment",
                        service := "frontend-svc" },
            destination := { ip := "10.0.0.9", port := 8080, pod := "p2", ns := "default",
                             workload := "backend", workloadType := "Deployment",
                             service := "backend-svc" },
            bytesSent := 123, bytesRecv := 456, durationNs := 7890,
            retransmits := 2, protocol := "TCP" }) "node-b" =
      { timestampNs := 1700000000000000000,
        node := if ("" : String) = "" then "node-b" else "",
        source := { ip := "10.0.0.5", port := 443, pod := "p1", ns := "default",
                    workload := "frontend", workloadType := "Deployment",
                    service := "frontend-svc" },
        destination := { ip := "10.0.0.9", port := 8080, pod := "p2", ns := "default",
                         workload := "backend", workloadType := "Deployment",
                         service := "backend-svc" },
        bytesSent := 123, bytesRecv := 456, durationNs := 7890,
        retransmits := 2, protocol := "TCP" } :=
  connectionEvent_roundtrip _ "node-b" (by decide) (by decide)

/-! ## C2 helper lemmas: bucket edge ladder -/

theorem getLastD_eq_getD_pred (l : List ℚ) : l.getLastD 0 = l.getD (l.length - 1) 0 := by
  rw [List.getLastD_eq_getLast?, List.getLast?_eq_getElem?, List.getD_eq_getElem?_getD]

theorem sorted_getD_mono (buckets : List ℚ) (hsort : buckets.Sorted (· ≤ ·))
    {i j : ℕ} (hij : i ≤ j) (hj : j < buckets.length) :
    buckets.getD i 0 ≤ buckets.getD j 0 := by
  rcases Nat.lt_or_ge i j with hlt | hge
  · have hi : i < buckets.length := lt_trans hlt hj
    rw [List.getD_eq_getElem _ _ hi, List.getD_eq_getElem _ _ hj]
    exact hsort.rel_get_of_lt hlt
  · have : i = j := le_antisymm hij hge
    rw [this]

theorem bLower_le_bUpper (buckets : List ℚ) (hsort : buckets.Sorted (· ≤ ·))
    (hnn : ∀ b ∈ buckets, 0 ≤ b) (i : ℕ) (hi : i ≤ buckets.length) :
    bLower buckets i ≤ bUpper buckets i := by
  rw [bLower, bUpper]
  by_cases hi0 : i = 0
  · subst hi0
    rw [if_pos rfl]
    by_cases hl : 0 < buckets.length
    · rw [if_pos hl, List.getD_eq_getElem _ _ hl]
      exact hnn _ (List.getElem_mem hl)
    · rw [if_neg hl]
      have hemp : buckets = [] := List.length_eq_zero.mp (by omega)
      subst hemp
      simp
  · rw [if_neg hi0, if_pos hi]
    by_cases hil : i < buckets.length
    · rw [if_pos hil]
      exact sorted_getD_mono buckets hsort (by omega) hil
    · rw [if_neg hil]
      have hieq : i = buckets.length := by omega
      have hl : 0 < buckets.length := by omega
      rw [getLastD_eq_getD_pred, hieq]
      have h0 : 0 ≤ buckets.getD (buckets.length - 1) 0 := by
        rw [List.getD_eq_getElem _ _ (by omega)]
        exact hnn _ (List.getElem_mem (by omega))
      linarith

theorem bUpper_eq_bLower_succ (buckets : List ℚ) (i : ℕ) (hi : i < buckets.length) :
    bUpper buckets i = bLower buckets (i + 1) := by
  rw [bUpper, bLower, if_pos hi, if_neg (Nat.succ_ne_zero i), if_pos (by omega)]
  simp

theorem bLower_mono (buckets : List ℚ) (hsort : buckets.Sorted (· ≤ ·))
    (hnn : ∀ b ∈ buckets, 0 ≤ b) :
    ∀ j : ℕ, j ≤ buckets.length → ∀ i, i ≤ j →
      bLower buckets i ≤ bLower buckets j := by
  intro j
  induction j with
  | zero =>
    intro _ i hi
    have : i = 0 := by omega
    rw [this]
  | succ j ih =>
    intro hj1 i hi
    by_cases heq : i = j + 1
    · rw [heq]
    · have hj : j < buckets.length := by omega
      calc bLower buckets i ≤ bLower buckets j := ih (by omega) i (by omega)
        _ ≤ bUpper buckets j := bLower_le_bUpper buckets hsort hnn j (by omega)
        _ = bLower buckets (j + 1) := bUpper_eq_bLower_succ buckets j hj

theorem bUpper_mono (buckets : List ℚ) (hsort : buckets.Sorted (· ≤ ·))
    (hnn : ∀ b ∈ buckets, 0 ≤ b) {i j : ℕ} (hij : i ≤ j) (hj : j ≤ buckets.length) :
    bUpper buckets i ≤ bUpper buckets j := by
  rcases Nat.lt_or_ge i j with hlt | hge
  · have hi : i < buckets.length := by omega
    calc bUpper buckets i = bLower buckets (i + 1) := bUpper_eq_bLower_succ buckets i hi
      _ ≤ bLower buckets j := bLower_mono buckets hsort hnn j hj (i + 1) (by omega)
      _ ≤ bUpper buckets j := bLower_le_bUpper buckets hsort hnn j hj
  · have : i = j := le_antisymm hij hge
    rw [this]

/-! ## C2 helper lemmas: bucket index of samples and histogram counts -/

theorem findIdx_le_findIdx_imp {p q : ℚ → Bool} (h : ∀ a, p a = true → q a = true) :
    ∀ l : List ℚ, l.findIdx q ≤ l.findIdx p := by
  intro l
  induction l with
  | nil => exact le_refl _
  | cons x xs ih =>
    rw [List.findIdx_cons, List.findIdx_cons]
    cases hq : q x with
    | true => simp
    | false =>
      have hp : p x = false := by
        cases hpx : p x
        · rfl
        · rw [h x hpx] at hq
          exact absurd hq (by simp)
      simp only [hq, hp, cond_false]
      exact Nat.succ_le_succ ih

theorem bucketIdx_mono (buckets : List ℚ) {x y : ℚ} (hxy : x ≤ y) :
    bucketIdx buckets x ≤ bucketIdx buckets y :=
  findIdx_le_findIdx_imp
    (fun b hb => decide_eq_true (le_trans hxy (of_decide_eq_true hb))) buckets

theorem getD_set_self (l : List ℕ) (i v : ℕ) (h : i < l.length) :
    (l.set i v).getD i 0 = v := by
  rw [List.getD_eq_getElem _ _ (by simpa using h)]
  exact List.getElem_set_self _

theorem getD_set_ne (l : List ℕ) (i j v : ℕ) (h : i ≠ j) :
    (l.set i v).getD j 0 = l.getD j 0 := by
  by_cases hj : j < l.length
  · rw [List.getD_eq_getElem _ _ (by simpa using hj), List.getD_eq_getElem _ _ hj]
    exact List.getElem_set_ne h _
  · rw [List.getD_eq_getElem?_getD, List.getD_eq_getElem?_getD]
    rw [List.getElem?_eq_none (by simpa using hj), List.getElem?_eq_none (by omega)]

theorem foldl_observe_getD (buckets : List ℚ) :
    ∀ (samples : List ℚ) (counts : List ℕ) (j : ℕ), buckets.length < counts.length →
      (samples.foldl (observeLatencyCounts buckets) counts).getD j 0 =
        counts.getD j 0 +
          samples.countP (fun s => decide (bucketIdx buckets s = j)) := by
  intro samples
  induction samples with
  | nil => intro counts j _; simp
  | cons s rest ih =>
    intro counts j h
    rw [List.foldl_cons, ih _ j (by rwa [observeLatencyCounts_length]), List.countP_cons]
    have hidx : bucketIdx buckets s < counts.length :=
      lt_of_le_of_lt (bucketIdx_le_length buckets s) h
    by_cases hj : bucketIdx buckets s = j
    · rw [observeLatencyCounts]
      rw [hj, getD_set_self _ _ _ (hj ▸ hidx)]
      simp [hj]
      omega
    · rw [observeLatencyCounts]
      rw [getD_set_ne _ _ _ _ hj]
      simp [hj]

theorem observeAll_getD (samples : List ℚ) (j : ℕ) :
    (observeAll samples).getD j 0 =
      samples.countP (fun s => decide (bucketIdx defaultBucketBoundaries s = j)) := by
  rw [observeAll, foldl_observe_getD _ _ _ _ (by simp)]
  simp [List.getD_eq_getElem?_getD]

theorem take_sum_zero :
    ∀ (l : List ℕ) (m : ℕ), (∀ j, j < m → l.getD j 0 = 0) → (l.take m).sum = 0 := by
  intro l
  induction l with
  | nil => intro m _; simp
  | cons a t ih =>
    intro m h
    cases m with
    | zero => simp
    | succ k =>
      rw [List.take_succ_cons, List.sum_cons]
      have ha : a = 0 := by simpa using h 0 (by omega)
      have ht : (t.take k).sum = 0 :=
        ih k (fun j hj => by simpa [List.getD_cons_succ] using h (j + 1) (by omega))
      omega

theorem drop_sum_zero :
    ∀ (l : List ℕ) (m : ℕ), (∀ j, m ≤ j → l.getD j 0 = 0) → (l.drop m).sum = 0 := by
  intro l
  induction l with
  | nil => intro m _; simp
  | cons a t ih =>
    intro m h
    cases m with
    | zero =>
      rw [List.drop_zero, List.sum_cons]
      have ha : a = 0 := by simpa using h 0 (by omega)
      have ht : (t.drop 0).sum = 0 :=
        ih 0 (fun j _ => by simpa [List.getD_cons_succ] using h (j + 1) (by omega))
      rw [List.drop_zero] at ht
      omega
    | succ k =>
      rw [List.drop_succ_cons]
      exact ih k (fun j hj => by simpa [List.getD_cons_succ] using h (j + 1) (by omega))

/-! ## C2 helper lemmas: the percentile bucket walk -/

theorem histPercentileAux_cons (buckets : List ℚ) (target : ℚ) (c : ℕ) (rest : List ℕ)
    (i : ℕ) (cum : ℚ) :
    histPercentileAux buckets target (c :: rest) i cum =
      if target ≤ cum + (c : ℚ) then
        (if c = 0 then bLower buckets i
         else bLower buckets i +
           ((target - cum) / (c : ℚ)) * (bUpper buckets i - bLower buckets i))
      else histPercentileAux buckets target rest (i + 1) (cum + (c : ℚ)) := rfl

theorem interp_ge_bLower (buckets : List ℚ) (hsort : buckets.Sorted (· ≤ ·))
    (hnn : ∀ b ∈ buckets, 0 ≤ b) (i : ℕ) (hi : i ≤ buckets.length) (c : ℕ)
    (cum target : ℚ) (hlt : cum < target) :
    bLower buckets i ≤
      (if c = 0 then bLower buckets i
       else bLower buckets i +
         ((target - cum) / (c : ℚ)) * (bUpper buckets i - bLower buckets i)) := by
  by_cases hc : c = 0
  · rw [if_pos hc]
  · rw [if_neg hc]
    have hcpos : (0 : ℚ) < (c : ℚ) := by exact_mod_cast Nat.pos_of_ne_zero hc
    have hw : 0 ≤ bUpper buckets i - bLower buckets i :=
      sub_nonneg.mpr (bLower_le_bUpper buckets hsort hnn i hi)
    have hfrac : 0 ≤ (target - cum) / (c : ℚ) := div_nonneg (by linarith) (le_of_lt hcpos)
    nlinarith

theorem interp_le_bUpper (buckets : List ℚ) (hsort : buckets.Sorted (· ≤ ·))
    (hnn : ∀ b ∈ buckets, 0 ≤ b) (i : ℕ) (hi : i ≤ buckets.length) (c : ℕ)
    (cum target : ℚ) (htc : target ≤ cum + (c : ℚ)) :
    (if c = 0 then bLower buckets i
     else bLower buckets i +
       ((target - cum) / (c : ℚ)) * (bUpper buckets i - bLower buckets i)) ≤
      bUpper buckets i := by
  by_cases hc : c = 0
  · rw [if_pos hc]
    exact bLower_le_bUpper buckets hsort hnn i hi
  · rw [if_neg hc]
    have hcpos : (0 : ℚ) < (c : ℚ) := by exact_mod_cast Nat.pos_of_ne_zero hc
    have hw : 0 ≤ bUpper buckets i - bLower buckets i :=
      sub_nonneg.mpr (bLower_le_bUpper buckets hsort hnn i hi)
    have hfrac : (target - cum) / (c : ℚ) ≤ 1 := by
      rw [div_le_one hcpos]
      linarith
    nlinarith

theorem histPercentileAux_ge (buckets : List ℚ) (hsort : buckets.Sorted (· ≤ ·))
    (hnn : ∀ b ∈ buckets, 0 ≤ b) :
    ∀ (counts : List ℕ) (i m : ℕ) (cum target : ℚ),
      i + counts.length = buckets.length + 1 →
      m ≤ counts.length →
      0 ≤ cum →
      cum + (((counts.take m).sum : ℕ) : ℚ) < target →
      target ≤ cum + ((counts.sum : ℕ) : ℚ) →
      bLower buckets (i + m) ≤ histPercentileAux buckets target counts i cum := by
  intro counts
  induction counts with
  | nil =>
    intro i m cum target hlen hm hcum hlt hle
    exfalso
    simp only [List.take_nil, List.sum_nil, Nat.cast_zero, add_zero] at hlt hle
    linarith
  | cons c rest ih =>
    intro i m cum target hlen hm hcum hlt hle
    rw [histPercentileAux_cons]
    have hilen : i ≤ buckets.length := by
      simp only [List.length_cons] at hlen
      omega
    have hsumcast : ((((c :: rest).sum : ℕ)) : ℚ) = (c : ℚ) + ((rest.sum : ℕ) : ℚ) := by
      rw [List.sum_cons]
      push_cast
      ring
    cases m with
    | zero =>
      simp only [List.take_zero, List.sum_nil, Nat.cast_zero, add_zero] at hlt
      by_cases htc : target ≤ cum + (c : ℚ)
      · rw [if_pos htc, Nat.add_zero]
        exact interp_ge_bLower buckets hsort hnn i hilen c cum target hlt
      · rw [if_neg htc]
        push_neg at htc
        by_cases hrest : rest = []
        · exfalso
          subst hrest
          rw [hsumcast] at hle
          simp only [List.sum_nil, Nat.cast_zero, add_zero] at hle
          linarith
        · have hrl : 0 < rest.length := List.length_pos.mpr hrest
          have hi1 : i + 1 ≤ buckets.length := by
            simp only [List.length_cons] at hlen
            omega
          have step := ih (i + 1) 0 (cum + (c : ℚ)) target
            (by simp only [List.length_cons] at hlen ⊢; omega)
            (by omega)
            (by positivity)
            (by simpa using htc)
            (by rw [hsumcast] at hle; linarith)
          calc bLower buckets (i + 0) = bLower buckets i := by rw [Nat.add_zero]
            _ ≤ bLower buckets (i + 1 + 0) := by
                rw [Nat.add_zero]
                exact bLower_mono buckets hsort hnn (i + 1) hi1 i (by omega)
            _ ≤ _ := step
    | succ k =>
      rw [List.take_succ_cons, List.sum_cons] at hlt
      have hlt' : cum + ((c : ℚ) + (((rest.take k).sum : ℕ) : ℚ)) < target := by
        have : (((c + (rest.take k).sum : ℕ)) : ℚ) =
            (c : ℚ) + (((rest.take k).sum : ℕ) : ℚ) := by push_cast; ring
        rwa [this] at hlt
      have htsum : (0 : ℚ) ≤ (((rest.take k).sum : ℕ) : ℚ) := by positivity
      have htc : ¬ target ≤ cum + (c : ℚ) := by
        push_neg
        linarith
      rw [if_neg htc]
      have hidx : i + (k + 1) = (i + 1) + k := by omega
      rw [hidx]
      exact ih (i + 1) k (cum + (c : ℚ)) target
        (by simp only [List.length_cons] at hlen ⊢; omega)
        (by simp only [List.length_cons] at hm; omega)
        (by positivity)
        (by linarith)
        (by rw [hsumcast] at hle; linarith)

theorem histPercentileAux_le (buckets : List ℚ) (hsort : buckets.Sorted (· ≤ ·))
    (hnn : ∀ b ∈ buckets, 0 ≤ b) :
    ∀ (counts : List ℕ) (i m : ℕ) (cum target : ℚ),
      i + counts.length = buckets.length + 1 →
      m ≤ counts.length →
      1 ≤ m →
      0 ≤ cum →
      cum < target →
      target ≤ cum + (((counts.take m).sum : ℕ) : ℚ) →
      histPercentileAux buckets target counts i cum ≤ bUpper buckets (i + m - 1) := by
  intro counts
  induction counts with
  | nil =>
    intro i m cum target hlen hm hm1 hcum hlt hle
    exfalso
    simp only [List.length_nil, Nat.le_zero] at hm
    omega
  | cons c rest ih =>
    intro i m cum target hlen hm hm1 hcum hlt hle
    rw [histPercentileAux_cons]
    have hilen : i ≤ buckets.length := by
      simp only [List.length_cons] at hlen
      omega
    cases m with
    | zero => exact absurd hm1 (by omega)
    | succ k =>
      have hkr : k ≤ rest.length := by
        simp only [List.length_cons] at hm
        omega
      have himk : i + k ≤ buckets.length := by
        simp only [List.length_cons] at hlen
        omega
      by_cases htc : target ≤ cum + (c : ℚ)
      · rw [if_pos htc]
        have hup := interp_le_bUpper buckets hsort hnn i hilen c cum target htc
        have hmono : bUpper buckets i ≤ bUpper buckets (i + (k + 1) - 1) := by
          have : i + (k + 1) - 1 = i + k := by omega
          rw [this]
          exact bUpper_mono buckets hsort hnn (by omega) himk
        linarith
      · rw [if_neg htc]
        push_neg at htc
        rw [List.take_succ_cons, List.sum_cons] at hle
        have hle' : target ≤ cum + ((c : ℚ) + (((rest.take k).sum : ℕ) : ℚ)) := by
          have : (((c + (rest.take k).sum : ℕ)) : ℚ) =
              (c : ℚ) + (((rest.take k).sum : ℕ) : ℚ) := by push_cast; ring
          rwa [this] at hle
        cases k with
        | zero =>
          exfalso
          simp only [List.take_zero, List.sum_nil, Nat.cast_zero, add_zero] at hle'
          linarith
        | succ k' =>
          have step := ih (i + 1) (k' + 1) (cum + (c : ℚ)) target
            (by simp only [List.length_cons] at hlen ⊢; omega)
            (by omega)
            (by omega)
            (by positivity)
            (by linarith)
            (by linarith)
          have hidx : (i + 1) + (k' + 1) - 1 = i + (k' + 1 + 1) - 1 := by omega
          rwa [hidx] at step

theorem histPercentileAux_mono (buckets : List ℚ) (hsort : buckets.Sorted (· ≤ ·))
    (hnn : ∀ b ∈ buckets, 0 ≤ b) :
    ∀ (counts : List ℕ) (i : ℕ) (cum t1 t2 : ℚ),
      i + counts.length = buckets.length + 1 →
      0 ≤ cum →
      cum < t1 →
      t1 ≤ t2 →
      t2 ≤ cum + ((counts.sum : ℕ) : ℚ) →
      histPercentileAux buckets t1 counts i cum ≤
        histPercentileAux buckets t2 counts i cum := by
  intro counts
  induction counts with
  | nil =>
    intro i cum t1 t2 hlen hcum h1 h12 h2
    exfalso
    simp only [List.sum_nil, Nat.cast_zero, add_zero] at h2
    linarith
  | cons c rest ih =>
    intro i cum t1 t2 hlen hcum h1 h12 h2
    rw [histPercentileAux_cons, histPercentileAux_cons]
    have hilen : i ≤ buckets.length := by
      simp only [List.length_cons] at hlen
      omega
    have hsumcast : ((((c :: rest).sum : ℕ)) : ℚ) = (c : ℚ) + ((rest.sum : ℕ) : ℚ) := by
      rw [List.sum_cons]
      push_cast
      ring
    by_cases h2c : t2 ≤ cum + (c : ℚ)
    · have h1c : t1 ≤ cum + (c : ℚ) := le_trans h12 h2c
      rw [if_pos h2c, if_pos h1c]
      by_cases hc : c = 0
      · simp only [if_pos hc]
        exact le_refl _
      · simp only [if_neg hc]
        have hcpos : (0 : ℚ) < (c : ℚ) := by exact_mod_cast Nat.pos_of_ne_zero hc
        have hw : 0 ≤ bUpper buckets i - bLower buckets i :=
          sub_nonneg.mpr (bLower_le_bUpper buckets hsort hnn i hilen)
        have hfr : (t1 - cum) / (c : ℚ) ≤ (t2 - cum) / (c : ℚ) :=
          (div_le_div_right hcpos).mpr (by linarith)
        nlinarith
    · rw [if_neg h2c]
      push_neg at h2c
      by_cases h1c : t1 ≤ cum + (c : ℚ)
      · rw [if_pos h1c]
        by_cases hrest : rest = []
        · exfalso
          subst hrest
          rw [hsumcast] at h2
          simp only [List.sum_nil, Nat.cast_zero, add_zero] at h2
          linarith
        · have hrl : 0 < rest.length := List.length_pos.mpr hrest
          have hif : i < buckets.length := by
            simp only [List.length_cons] at hlen
            omega
          have hup := interp_le_bUpper buckets hsort hnn i hilen c cum t1 h1c
          have hlow := histPercentileAux_ge buckets hsort hnn rest (i + 1) 0
            (cum + (c : ℚ)) t2
            (by simp only [List.length_cons] at hlen ⊢; omega)
            (by omega)
            (by positivity)
            (by simpa using h2c)
            (by rw [hsumcast] at h2; linarith)
          rw [Nat.add_zero] at hlow
          have heq := bUpper_eq_bLower_succ buckets i hif
          linarith
      · rw [if_neg h1c]
        push_neg at h1c
        exact ih (i + 1) (cum + (c : ℚ)) t1 t2
          (by simp only [List.length_cons] at hlen ⊢; omega)
          (by positivity)
          (by linarith)
          h12
          (by rw [hsumcast] at h2; linarith)

/-! ## C2 -/

/-- C2 counterexample: the claimed interval `[min(samples), max(samples)·2]`
fails on both sides. A single sample of 0.9 ms (bucket 0, upper bound 1 ms)
gives a median estimate of 0.5 ms, below the minimum sample; a single sample
of 1.1 ms (bucket 1, upper bound 5 ms) gives a q = 1 estimate of 5 ms,
above twice the maximum sample (2.2 ms). -/
theorem histogramPercentile_outside_minmax_cex :
    percentileOfSamples [(900000 : ℚ)] (1 / 2) = 500000 ∧
    percentileOfSamples [(900000 : ℚ)] (1 / 2) < 900000 ∧
    percentileOfSamples [(1100000 : ℚ)] 1 = 5000000 ∧
    (1100000 : ℚ) * 2 < percentileOfSamples [(1100000 : ℚ)] 1 := by
  have hobs1 : observeAll [(900000 : ℚ)] = [1, 0, 0, 0, 0, 0, 0, 0, 0, 0, 0, 0, 0] := by
    decide
  have hobs2 : observeAll [(1100000 : ℚ)] = [0, 1, 0, 0, 0, 0, 0, 0, 0, 0, 0, 0, 0] := by
    decide
  have h1 : percentileOfSamples [(900000 : ℚ)] (1 / 2) = 500000 := by
    rw [percentileOfSamples, hobs1]
    rw [show totalHistogramCount [1, 0, 0, 0, 0, 0, 0, 0, 0, 0, 0, 0, 0] = 1 from rfl]
    rw [histogramPercentile, histPercentileAux_cons]
    rw [if_pos (by norm_num), if_neg (by norm_num)]
    rw [show bLower defaultBucketBoundaries 0 = 0 from rfl,
      show bUpper defaultBucketBoundaries 0 = 1000000 from rfl]
    norm_num
  have h2 : percentileOfSamples [(1100000 : ℚ)] 1 = 5000000 := by
    rw [percentileOfSamples, hobs2]
    rw [show totalHistogramCount [0, 1, 0, 0, 0, 0, 0, 0, 0, 0, 0, 0, 0] = 1 from rfl]
    rw [histogramPercentile, histPercentileAux_cons]
    rw [if_neg (by norm_num)]
    rw [histPercentileAux_cons]
    rw [if_pos (by norm_num), if_neg (by norm_num)]
    rw [show bLower defaultBucketBoundaries 1 = 1000000 from rfl,
      show bUpper defaultBucketBoundaries 1 = 5000000 from rfl]
    norm_num
  refine ⟨h1, by rw [h1]; norm_num, h2, by rw [h2]; norm_num⟩

/-- C2 (amended): for a histogram of `n > 0` samples and `0 < q ≤ q2 ≤ 1`,
the percentile estimate lies between the lower edge of the bucket holding
the minimum sample and the upper edge of the bucket holding the maximum
sample (where a bucket's lower edge is the previous boundary, or 0 for
bucket 0, and its upper edge is its boundary, or twice the last boundary
for the overflow bucket), and the estimate is monotonically non-decreasing
in the quantile. -/
theorem histogramPercentile_bucket_range_and_mono
    (samples : List ℚ) (q q2 xmin xmax : ℚ)
    (hminm : xmin ∈ samples) (hmin : ∀ y ∈ samples, xmin ≤ y)
    (hmaxm : xmax ∈ samples) (hmax : ∀ y ∈ samples, y ≤ xmax)
    (hq0 : 0 < q) (hq12 : q ≤ q2) (hq1 : q2 ≤ 1) :
    bLower defaultBucketBoundaries (bucketIdx defaultBucketBoundaries xmin) ≤
        percentileOfSamples samples q ∧
      percentileOfSamples samples q ≤
        bUpper defaultBucketBoundaries (bucketIdx defaultBucketBoundaries xmax) ∧
      percentileOfSamples samples q ≤ percentileOfSamples samples q2 := by
  have hsort : defaultBucketBoundaries.Sorted (· ≤ ·) := by decide
  have hnn : ∀ b ∈ defaultBucketBoundaries, 0 ≤ b := by decide
  have hclen : (observeAll samples).length = defaultBucketBoundaries.length + 1 :=
    observeAll_length samples
  have hcsum : (observeAll samples).sum = samples.length := observeAll_sum samples
  have hn : 0 < samples.length := List.length_pos.mpr (List.ne_nil_of_mem hminm)
  have hS : (0 : ℚ) < (((observeAll samples).sum : ℕ) : ℚ) := by
    rw [hcsum]
    exact_mod_cast hn
  have hq1' : q ≤ 1 := le_trans hq12 hq1
  have hunfold : ∀ r : ℚ, percentileOfSamples samples r =
      histPercentileAux defaultBucketBoundaries
        (r * (((observeAll samples).sum : ℕ) : ℚ)) (observeAll samples) 0 0 := by
    intro r
    have ht : totalHistogramCount (observeAll samples) = (observeAll samples).sum := by
      rw [totalHistogramCount, ← List.sum_eq_foldl]
    rw [percentileOfSamples, histogramPercentile, ht]
  have htpos : 0 < q * (((observeAll samples).sum : ℕ) : ℚ) := mul_pos hq0 hS
  have htle : q * (((observeAll samples).sum : ℕ) : ℚ) ≤
      (((observeAll samples).sum : ℕ) : ℚ) := by nlinarith
  have ht2pos : 0 < q2 * (((observeAll samples).sum : ℕ) : ℚ) :=
    mul_pos (lt_of_lt_of_le hq0 hq12) hS
  have ht2le : q2 * (((observeAll samples).sum : ℕ) : ℚ) ≤
      (((observeAll samples).sum : ℕ) : ℚ) := by nlinarith
  refine ⟨?_, ?_, ?_⟩
  · -- lower edge of the min sample's bucket
    have htake0 : ((observeAll samples).take
        (bucketIdx defaultBucketBoundaries xmin)).sum = 0 := by
      apply take_sum_zero
      intro j hj
      rw [observeAll_getD]
      rw [List.countP_eq_zero]
      intro a ha
      simp only [decide_eq_true_eq]
      intro heq
      have hle := bucketIdx_mono defaultBucketBoundaries (hmin a ha)
      omega
    have hge := histPercentileAux_ge defaultBucketBoundaries hsort hnn
      (observeAll samples) 0 (bucketIdx defaultBucketBoundaries xmin) 0
      (q * (((observeAll samples).sum : ℕ) : ℚ))
      (by rw [hclen]; omega)
      (by rw [hclen]; have := bucketIdx_le_length defaultBucketBoundaries xmin; omega)
      (le_refl 0)
      (by rw [htake0]; simpa using htpos)
      (by simpa using htle)
    rw [hunfold q]
    simpa using hge
  · -- upper edge of the max sample's bucket
    have hdrop0 : ((observeAll samples).drop
        (bucketIdx defaultBucketBoundaries xmax + 1)).sum = 0 := by
      apply drop_sum_zero
      intro j hj
      rw [observeAll_getD]
      rw [List.countP_eq_zero]
      intro a ha
      simp only [decide_eq_true_eq]
      intro heq
      have hle := bucketIdx_mono defaultBucketBoundaries (hmax a ha)
      omega
    have htakeS : ((observeAll samples).take
        (bucketIdx defaultBucketBoundaries xmax + 1)).sum =
          (observeAll samples).sum := by
      have h := List.sum_take_add_sum_drop (observeAll samples)
        (bucketIdx defaultBucketBoundaries xmax + 1)
      omega
    have hle := histPercentileAux_le defaultBucketBoundaries hsort hnn
      (observeAll samples) 0 (bucketIdx defaultBucketBoundaries xmax + 1) 0
      (q * (((observeAll samples).sum : ℕ) : ℚ))
      (by rw [hclen]; omega)
      (by rw [hclen]; have := bucketIdx_le_length defaultBucketBoundaries xmax; omega)
      (by omega)
      (le_refl 0)
      (by simpa using htpos)
      (by rw [htakeS]; simpa using htle)
    rw [hunfold q]
    have hidx : 0 + (bucketIdx defaultBucketBoundaries xmax + 1) - 1 =
        bucketIdx defaultBucketBoundaries xmax := by omega
    rwa [hidx] at hle
  · -- monotone in the quantile
    have hmono := histPercentileAux_mono defaultBucketBoundaries hsort hnn
      (observeAll samples) 0 0
      (q * (((observeAll samples).sum : ℕ) : ℚ))
      (q2 * (((observeAll samples).sum : ℕ) : ℚ))
      (by rw [hclen]; omega)
      (le_refl 0)
      (by simpa using htpos)
      (mul_le_mul_of_nonneg_right hq12 (le_of_lt hS))
      (by simpa using ht2le)
    rw [hunfold q, hunfold q2]
    exact hmono

/-- C2 witness: samples 2 ms and 40 ms, quantiles 1/2 ≤ 1: the estimate for
q = 1/2 is at least the lower edge of 2 ms's bucket, at most the upper edge
of 40 ms's bucket, and no larger than the q = 1 estimate. -/
theorem histogramPercentile_bucket_range_and_mono_witness :
    bLower defaultBucketBoundaries
        (bucketIdx defaultBucketBoundaries (2000000 : ℚ)) ≤
        percentileOfSamples [(2000000 : ℚ), 40000000] (1 / 2) ∧
      percentileOfSamples [(2000000 : ℚ), 40000000] (1 / 2) ≤
        bUpper defaultBucketBoundaries
          (bucketIdx defaultBucketBoundaries (40000000 : ℚ)) ∧
      percentileOfSamples [(2000000 : ℚ), 40000000] (1 / 2) ≤
        percentileOfSamples [(2000000 : ℚ), 40000000] 1 :=
  histogramPercentile_bucket_range_and_mono [(2000000 : ℚ), 40000000] (1 / 2) 1
    2000000 40000000 (by decide) (by decide) (by decide) (by decide)
    (by norm_num) (by norm_num) (by norm_num)

end Nefi
